import Mathlib

/-
Verification of the optimizer core of the `blocks` training framework
(`blocks/algorithms/__init__.py`): the StepRule hierarchy and the
GradientDescent / DifferentiableCostMinimizer life cycle.

Modelling choices:
* Theano shared variables (parameters and the state cells created by step
  rules) are identified by natural-number ids (`Var`).  A parameter used as
  an expression is `Expr.cell p`.
* Symbolic Theano expressions are embedded as the inductive `Expr` over
  rational literals; `eval` gives them real-number semantics.  Reals carry
  no NaN/Inf, so the `isnan/isinf` switch of RemoveNotFinite evaluates to
  its "finite" branch; the switch node itself is kept in the syntax.
* Scalar hyper-parameters that the rules create as shared scalars in
  `__init__` (learning rate, momentum, decay rates, epsilons, thresholds)
  are embedded as literals: no step rule ever writes to them, so for the
  properties proved here they are constants.
* Tensors are modelled componentwise: every parameter is a scalar cell.
  All the step-rule arithmetic in the source is elementwise except the
  joint norm of StepClipping, whose input values here are scalars exactly
  as in the repository's own StepClipping test.  VariableClipping is
  modelled in its axis-free form (`axis=None`), which on scalar parameters
  is the only applicable one.
* Fresh shared-variable creation (`shared_floatx(param.get_value() * 0.)`)
  is modelled by threading a `Fresh` allocator recording the next unused id
  and the initial value of every cell created so far.
-/

namespace Blocks

/-- Identifier of a Theano shared variable (a parameter or a state cell). -/
abbrev Var := Nat

/-- Symbolic Theano scalar expressions, as built by the step rules. -/
inductive Expr where
  | num : ℚ → Expr
  | cell : Var → Expr
  | add : Expr → Expr → Expr
  | sub : Expr → Expr → Expr
  | mul : Expr → Expr → Expr
  | div : Expr → Expr → Expr
  | sqr : Expr → Expr
  | sqrt : Expr → Expr
  | pow : Expr → Expr → Expr
  | max : Expr → Expr → Expr
  | switchLt : Expr → Expr → Expr → Expr → Expr
  | switchGt : Expr → Expr → Expr → Expr → Expr
  | switchNotFinite : Expr → Expr → Expr → Expr
  deriving DecidableEq, Repr

/-- Real-number semantics of an expression under a store assigning a value
to every shared variable.  Division follows Lean's convention `x / 0 = 0`;
no property proved here divides by zero.  `switchNotFinite` takes its
second ("finite") branch because real numbers are always finite. -/
noncomputable def eval (σ : Var → ℝ) : Expr → ℝ
  | .num q => (q : ℝ)
  | .cell v => σ v
  | .add a b => eval σ a + eval σ b
  | .sub a b => eval σ a - eval σ b
  | .mul a b => eval σ a * eval σ b
  | .div a b => eval σ a / eval σ b
  | .sqr a => eval σ a ^ 2
  | .sqrt a => Real.sqrt (eval σ a)
  | .pow a b => eval σ a ^ eval σ b
  | .max a b => Max.max (eval σ a) (eval σ b)
  | .switchLt a b x y => if eval σ a < eval σ b then eval σ x else eval σ y
  | .switchGt a b x y => if eval σ b < eval σ a then eval σ x else eval σ y
  | .switchNotFinite _ _ y => eval σ y

/-- Allocation state for fresh shared variables: the next unused id and the
(id, initial value) record of every cell created so far. -/
structure Fresh where
  ctr : Nat
  inits : List (Var × ℚ)
  deriving DecidableEq, Repr

/-- Create a fresh shared variable with the given initial value
(`shared_floatx(...)` inside `compute_step`). -/
def alloc (q : ℚ) (s : Fresh) : Var × Fresh :=
  (s.ctr, ⟨s.ctr + 1, s.inits ++ [(s.ctr, q)]⟩)

/-- Modelled from the spec: `l2_norm` from `blocks.theano_expressions`
(the module is not under `src/`).  Spec section 4.7: the L2 norm is computed
"over the concatenation of all parameters' previous-step values jointly
... flattening and combining across all keys", i.e. the square root of the
sum of the squares of all entries. -/
def l2norm (es : List Expr) : Expr :=
  .sqrt (es.foldl (fun acc e => .add acc (.sqr e)) (.num 0))

/-- Modelled from the spec: `dict_subset` from `blocks.utils` (the module is
not under `src/`).  Spec section 4.12: Restrict applies the wrapped rule
"only to the subset of the input mapping whose keys are in the target set";
the sub-mapping keeps the input's iteration order. -/
def dictSubset (d : List (Var × Expr)) (keys : List Var) : List (Var × Expr) :=
  d.filter (fun pe => pe.1 ∈ keys)

/-- The step rules defined in `blocks/algorithms/__init__.py`.  `Momentum`
and `RMSProp` are pre-built composites, defined below as abbreviations.
Hyper-parameters are the rationals corresponding to the Python floats. -/
inductive SRule where
  | scale (lr : ℚ)
  | basicMomentum (m : ℚ)
  | adaDelta (ρ ε : ℚ)
  | basicRMSProp (ρ ε : ℚ)
  | adaGrad (lr ε : ℚ)
  | adam (lr β1 β2 ε d : ℚ)
  | removeNotFinite (sc : ℚ)
  | variableClipping (θ : ℚ)
  | stepClipping (θ : Option ℚ)
  | composite (rs : List SRule)
  | restrict (r : SRule) (vars : List Var)

/-- Per-parameter `compute_step`.  Returns `none` for the rules that do not
define it (CompositeRule, Restrict and StepClipping override `compute_steps`
instead; the base class raises NotImplementedError). -/
def computeStep : SRule → Var → Expr → Fresh → Option ((Expr × List (Var × Expr)) × Fresh)
  | .scale lr, _, g, s =>
      some ((.mul (.num lr) g, []), s)
  | .basicMomentum m, _, g, s =>
      let (v, s') := alloc 0 s
      let step := Expr.add (.mul (.num m) (.cell v)) g
      some ((step, [(v, step)]), s')
  | .adaDelta ρ ε, _, g, s =>
      let (msStep, s1) := alloc 0 s
      let (msDx, s2) := alloc 0 s1
      let msStepT :=
        Expr.add (.mul (.num ρ) (.cell msStep))
          (.mul (.sub (.num 1) (.num ρ)) (.sqr g))
      let rmsDxTm1 := Expr.sqrt (.add (.cell msDx) (.num ε))
      let rmsStepT := Expr.sqrt (.add msStepT (.num ε))
      let deltaX := Expr.mul (.div rmsDxTm1 rmsStepT) g
      let msDxT :=
        Expr.add (.mul (.num ρ) (.cell msDx))
          (.mul (.sub (.num 1) (.num ρ)) (.sqr deltaX))
      some ((deltaX, [(msStep, msStepT), (msDx, msDxT)]), s2)
  | .basicRMSProp ρ ε, _, g, s =>
      let (ms, s') := alloc 0 s
      let msT :=
        Expr.add (.mul (.num ρ) (.cell ms))
          (.mul (.sub (.num 1) (.num ρ)) (.sqr g))
      let rms := Expr.max (.sqrt msT) (.num ε)
      some ((.div g rms, [(ms, msT)]), s')
  | .adaGrad lr ε, _, g, s =>
      let (ssq, s') := alloc 0 s
      let ssqT := Expr.add (.sqr g) (.cell ssq)
      let step := Expr.div (.mul (.num lr) g) (.add (.sqrt ssqT) (.num ε))
      some ((step, [(ssq, ssqT)]), s')
  | .adam lr β1 β2 ε d, _, g, s =>
      let (mean, s1) := alloc 0 s
      let (variance, s2) := alloc 0 s1
      let (time, s3) := alloc 0 s2
      let t1 := Expr.add (.cell time) (.num 1)
      let lrE :=
        Expr.div (.mul (.num lr) (.sqrt (.sub (.num 1) (.pow (.num (1 - β2)) t1))))
          (.sub (.num 1) (.pow (.num (1 - β1)) t1))
      let β1t := Expr.sub (.num 1) (.mul (.num (1 - β1)) (.pow (.num d) (.sub t1 (.num 1))))
      let meanT := Expr.add (.mul β1t g) (.mul (.sub (.num 1) β1t) (.cell mean))
      let varT := Expr.add (.mul (.num β2) (.sqr g)) (.mul (.num (1 - β2)) (.cell variance))
      let step := Expr.div (.mul lrE meanT) (.add (.sqrt varT) (.num ε))
      some ((step, [(mean, meanT), (variance, varT), (time, t1)]), s3)
  | .removeNotFinite sc, p, g, s =>
      some ((.switchNotFinite g (.mul (.num sc) (.cell p)) g, []), s)
  | .variableClipping θ, p, g, s =>
      let norms := l2norm [.sub (.cell p) g]
      let shrinking := Expr.sub (.cell p) (.mul (.div (.num θ) norms) (.sub (.cell p) g))
      some ((.switchGt norms (.num θ) shrinking g, []), s)
  | .stepClipping _, _, _, _ => none
  | .composite _, _, _, _ => none
  | .restrict _ _, _, _, _ => none

/-- The default `StepRule.compute_steps` loop: `compute_step` is fanned out
over every key of `previous_steps` in iteration order, the per-parameter
update lists are concatenated in the same order (`itertools.chain`). -/
def fanOut (r : SRule) : List (Var × Expr) → Fresh →
    Option ((List (Var × Expr) × List (Var × Expr)) × Fresh)
  | [], s => some (([], []), s)
  | pe :: rest, s =>
      match computeStep r pe.1 pe.2 s with
      | none => none
      | some ((st, up), s') =>
          match fanOut r rest s' with
          | none => none
          | some ((sts, ups), s'') => some (((pe.1, st) :: sts, up ++ ups), s'')

/-- Dynamic shape of a Python `compute_steps` return value.  The contract
documented on the base class is the `tuple` form `(steps, updates)`;
`StepClipping` with no threshold returns the bare mapping (`dictOnly`).
`err` models the exception a caller's tuple-unpacking of a non-tuple (or a
propagated failure) raises. -/
inductive PyRet where
  | tuple (steps : List (Var × Expr)) (updates : List (Var × Expr))
  | dictOnly (steps : List (Var × Expr))
  | err
  deriving DecidableEq, Repr

/-- The multiplier StepClipping applies to every step:
`tensor.switch(norm < threshold, 1, threshold / norm)` over the joint norm
of all values of the input mapping. -/
def clipMult (θ : ℚ) (prev : List (Var × Expr)) : Expr :=
  .switchLt (l2norm (prev.map Prod.snd)) (.num θ) (.num 1)
    (.div (.num θ) (l2norm (prev.map Prod.snd)))

mutual

/-- `compute_steps` for every step rule of the module, following the
source's dispatch: StepClipping, CompositeRule and Restrict override it,
every other rule uses the base-class fan-out over `compute_step`.  On the
default path, after the (then vacuous) `compute_step` loop, the unpacking
`steps, updates = equizip(*parameter_wise)` raises ValueError when the
input mapping is empty — equizip of zero pair lists yields nothing to
unpack into the two names — so the empty mapping is an error (`err`). -/
def computeSteps : SRule → List (Var × Expr) → Fresh → PyRet × Fresh
  | .stepClipping none, prev, s => (.dictOnly prev, s)
  | .stepClipping (some θ), prev, s =>
      (.tuple (prev.map fun pe => (pe.1, .mul pe.2 (clipMult θ prev))) [], s)
  | .composite rs, prev, s => compositeSteps rs prev [] s
  | .restrict r vars, prev, s =>
      match computeSteps r (dictSubset prev vars) s with
      | (.tuple steps upds, s') =>
          (.tuple (prev.map fun pe => (pe.1, (List.lookup pe.1 steps).getD pe.2)) upds, s')
      | (_, s') => (.err, s')
  | r, prev, s =>
      match fanOut r prev s with
      | none => (.err, s)
      | some ((steps, upds), s') =>
          if prev.isEmpty then (.err, s) else (.tuple steps upds, s')

/-- The CompositeRule loop: output steps of each component feed the next,
update pairs accumulate in order. -/
def compositeSteps : List SRule → List (Var × Expr) → List (Var × Expr) → Fresh → PyRet × Fresh
  | [], steps, upds, s => (.tuple steps upds, s)
  | r :: rest, steps, upds, s =>
      match computeSteps r steps s with
      | (.tuple steps' more, s') => compositeSteps rest steps' (upds ++ more) s'
      | (_, s') => (.err, s')

end

/-- `Momentum(learning_rate, momentum)` is built in `__init__` as the
composite `[Scale(learning_rate), BasicMomentum(momentum)]`. -/
def momentumRule (lr m : ℚ) : SRule := .composite [.scale lr, .basicMomentum m]

/-- `RMSProp(learning_rate, decay_rate, max_scaling)` is built in
`__init__` as the composite `[BasicRMSProp(decay_rate, max_scaling),
Scale(learning_rate)]`; `ε = 1 / max_scaling`. -/
def rmsPropRule (lr ρ ε : ℚ) : SRule := .composite [.basicRMSProp ρ ε, .scale lr]

mutual

/-- The condition under which a rule's `compute_steps` returns normally on
a mapping with the given key list: every StepClipping inside has a
configured threshold (otherwise the bare-dict return, see the C6 analysis),
and every default-path invocation along the execution receives a non-empty
mapping (otherwise the equizip-unpacking ValueError).  Key lists suffice
because every rule's output mapping keeps its input's keys, and Restrict
passes the keys filtered by its variables set to the wrapped rule. -/
def totalOn : SRule → List Var → Bool
  | .stepClipping θ, _ => θ.isSome
  | .composite rs, keys => totalOnList rs keys
  | .restrict r vars, keys => totalOn r (keys.filter (fun v => v ∈ vars))
  | _, keys => !keys.isEmpty

/-- `totalOn` for each component of a CompositeRule: the key list is the
same for every component because each one's output keys equal its input
keys. -/
def totalOnList : List SRule → List Var → Bool
  | [], _ => true
  | r :: rest, keys => totalOn r keys && totalOnList rest keys

end

/-- The rules that implement `compute_step` (every rule except the three
that override `compute_steps` instead). -/
def isLeaf : SRule → Bool
  | .stepClipping _ => false
  | .composite _ => false
  | .restrict _ _ => false
  | _ => true

/-- Simultaneous application of a list of update pairs to a store, as the
compiled Theano function performs it: every right-hand side is evaluated in
the pre-update store, then all targets are written together. -/
noncomputable def applyUpdates (upds : List (Var × Expr)) (σ : Var → ℝ) : Var → ℝ :=
  fun v =>
    match List.lookup v upds with
    | some e => eval σ e
    | none => σ v

/-- The update-pair list built by `GradientDescent.initialize`:
`all_updates = self.updates` (the extra updates registered through
`add_updates`, aliased in place), then one `(param, param - steps[param])`
pair is appended per parameter in parameter order, then the step rule's own
update pairs are appended.  `steps` is passed as the lookup function of the
step mapping, whose keys are the parameters. -/
def gdInitialize (updates : List (Var × Expr)) (params : List Var)
    (steps : Var → Expr) (stepRuleUpdates : List (Var × Expr)) : List (Var × Expr) :=
  (params.foldl (fun acc p => acc ++ [(p, .sub (.cell p) (steps p))]) updates)
    ++ stepRuleUpdates

/-- The update-pair order as the spec states it: first the per-parameter
pairs, then the step rule's updates, then the extra updates registered on
the minimizer.  Kept for comparison with `gdInitialize`. -/
def gdInitializeClaimed (updates : List (Var × Expr)) (params : List Var)
    (steps : Var → Expr) (stepRuleUpdates : List (Var × Expr)) : List (Var × Expr) :=
  (params.map fun p => (p, Expr.sub (.cell p) (steps p)))
    ++ stepRuleUpdates ++ updates

/-- Python truthiness of the optional `gradients` argument of
`GradientDescent.__init__`: `None` and the empty mapping are both falsy. -/
def pyTruthy : Option (List (Var × Expr)) → Bool
  | none => false
  | some [] => false
  | some (_ :: _) => true

/-- How `GradientDescent` obtained its gradient dictionary: either the
caller supplied it, or it was computed by `tensor.grad(cost, params,
known_grads=known_grads)` over the parameters in order. -/
inductive GDGradients where
  | supplied (g : List (Var × Expr))
  | autodiff (params : List Var) (knownGrads : Bool)
  deriving DecidableEq, Repr

/-- The constructor logic of `GradientDescent.__init__` that decides the
parameter list and the gradient dictionary.  `gradients = none` models the
argument not being passed; `paramsKw` models the `params` keyword reaching
`DifferentiableCostMinimizer.__init__` (required there, so its absence
without a truthy `gradients` is an error).  Mirrors the source: a truthy
`gradients` defaults `params` to its keys; a falsy one triggers automatic
differentiation with `known_grads` passed through; a truthy one together
with `known_grads` raises `ValueError`. -/
def gdInit (gradients : Option (List (Var × Expr))) (knownGrads : Bool)
    (paramsKw : Option (List Var)) : Except String (List Var × GDGradients) :=
  let params? : Option (List Var) :=
    match paramsKw with
    | some ps => some ps
    | none =>
        if pyTruthy gradients then some ((gradients.getD []).map Prod.fst) else none
  match params? with
  | none => .error "params is a required argument"
  | some params =>
      if pyTruthy gradients then
        if knownGrads then
          .error "known_grads has no effect when gradients are passed in"
        else
          .ok (params, .supplied (gradients.getD []))
      else
        .ok (params, .autodiff params knownGrads)

/-- Boolean equality of the key sets, as Python's
`set(batch.keys()) == set([v.name for v in self.inputs])`. -/
def setEqB (a b : List String) : Bool :=
  a.all (fun x => b.contains x) && b.all (fun x => a.contains x)

/-- `GradientDescent.process_batch`: raises when the set of batch keys
differs from the set of input names, reporting both (here the error payload
carries the two lists interpolated into the message); otherwise reorders
the batch values into `inputs` order and calls the compiled function on
them.  The `ok` payload is the positional argument list of that call, each
entry the batch's value for the corresponding input name. -/
def processBatch (inputs : List String) (batch : List (String × ℚ)) :
    Except (List String × List String) (List (Option ℚ)) :=
  if setEqB (batch.map Prod.fst) inputs then
    .ok (inputs.map fun n => List.lookup n batch)
  else
    .error (batch.map Prod.fst, inputs)

/-- The symbolic gradient `tensor.grad` produces for `cost = (a ** 2).sum()`
with respect to one component cell of `a`: the expression `2 * a`.  This is
the setup of the repository's momentum tests, modelled componentwise. -/
def gradSq (p : Var) : Expr := .mul (.num 2) (.cell p)

/-- Input mapping of the BasicMomentum scenario: parameter components
`a = [3, 4]` live in cells 0 and 1, each mapped to its gradient `2 * a`. -/
def bmPrev : List (Var × Expr) := [(0, gradSq 0), (1, gradSq 1)]

/-- Step expression BasicMomentum(0.5) emits for cell 0 (velocity cell 2). -/
def bmSt0 : Expr := .add (.mul (.num (1/2)) (.cell 2)) (gradSq 0)

/-- Step expression BasicMomentum(0.5) emits for cell 1 (velocity cell 3). -/
def bmSt1 : Expr := .add (.mul (.num (1/2)) (.cell 3)) (gradSq 1)

/-- Update pairs BasicMomentum(0.5) emits on `bmPrev`: each velocity cell
is assigned the just-computed step. -/
def bmUpds : List (Var × Expr) := [(2, bmSt0), (3, bmSt1)]

/-- Store sequence of the momentum scenario: the initial store holds the
parameter values `a = [3, 4]` in cells 0 and 1 and the freshly created
velocity cells at their initial value 0; each later store applies the
emitted update pairs once, as each call of the compiled function does. -/
noncomputable def bmStore : Nat → Var → ℝ
  | 0 => fun v => if v = 0 then 3 else if v = 1 then 4 else 0
  | n + 1 => applyUpdates bmUpds (bmStore n)

/-- Every rule that keeps the default `compute_steps` has a total
`compute_step`. -/
theorem computeStep_isSome_of_isLeaf (r : SRule) (h : isLeaf r = true)
    (p : Var) (g : Expr) (s : Fresh) :
    ∃ res s', computeStep r p g s = some (res, s') := by
  cases r <;> first
    | exact ⟨_, _, rfl⟩
    | simp [isLeaf] at h

/-- The default fan-out succeeds on leaf rules and preserves the key list
of the input mapping. -/
theorem fanOut_keys (r : SRule) (h : isLeaf r = true) :
    ∀ (prev : List (Var × Expr)) (s : Fresh),
      ∃ st up s', fanOut r prev s = some ((st, up), s') ∧
        st.map Prod.fst = prev.map Prod.fst := by
  intro prev
  induction prev with
  | nil => exact fun s => ⟨[], [], s, rfl, rfl⟩
  | cons pe rest ih =>
      intro s
      obtain ⟨⟨stE, upd⟩, s', hstep⟩ := computeStep_isSome_of_isLeaf r h pe.1 pe.2 s
      obtain ⟨st, up, s'', hfan, hkeys⟩ := ih s'
      refine ⟨(pe.1, stE) :: st, upd ++ up, s'', ?_, ?_⟩
      · simp [fanOut, hstep, hfan]
      · simp [hkeys]

/-- Shared helper: whenever the default fan-out returns a result, its step
list carries exactly the input's keys in order. -/
theorem fanOut_some_keys (r : SRule) :
    ∀ (prev : List (Var × Expr)) (s : Fresh) (st up : List (Var × Expr)) (s' : Fresh),
      fanOut r prev s = some ((st, up), s') → st.map Prod.fst = prev.map Prod.fst := by
  intro prev
  induction prev with
  | nil =>
      intro s st up s' h
      rw [fanOut] at h
      injection h with h1
      injection h1 with hX hs
      injection hX with hst hup
      subst hst
      rfl
  | cons pe rest ih =>
      intro s st up s' h
      rw [fanOut] at h
      rcases hcs : computeStep r pe.1 pe.2 s with _ | ⟨⟨stE, upd⟩, s1⟩
      · rw [hcs] at h
        simp at h
      · rw [hcs] at h
        dsimp only at h
        rcases hfo : fanOut r rest s1 with _ | ⟨⟨sts, ups⟩, s2⟩
        · rw [hfo] at h
          simp at h
        · rw [hfo] at h
          dsimp only at h
          injection h with h1
          injection h1 with hX hs
          injection hX with hst hup
          subst hst
          simp [ih s1 sts ups s2 hfo]

/-- Shared helper: the key list of the restricted sub-mapping is the input
key list filtered by membership in the variables set. -/
theorem dictSubset_keys (prev : List (Var × Expr)) (vars : List Var) :
    (dictSubset prev vars).map Prod.fst =
      (prev.map Prod.fst).filter (fun v => v ∈ vars) := by
  induction prev with
  | nil => rfl
  | cons pe rest ih =>
      by_cases h : pe.1 ∈ vars
      · simp [dictSubset, List.filter_cons, h] at ih ⊢
        exact ih
      · simp [dictSubset, List.filter_cons, h] at ih ⊢
        exact ih

/-- Shared helper: on every leaf rule `compute_steps` takes the default
path: fan out `compute_step`, then error on the empty mapping (the
equizip-unpacking ValueError), else return the tuple. -/
theorem computeSteps_leaf_eq (r : SRule) (hleaf : isLeaf r = true)
    (prev : List (Var × Expr)) (s : Fresh) :
    computeSteps r prev s =
      match fanOut r prev s with
      | none => (.err, s)
      | some ((steps, upds), s') =>
          if prev.isEmpty then (.err, s) else (.tuple steps upds, s') := by
  cases r
  case stepClipping θ => simp [isLeaf] at hleaf
  case composite rs => simp [isLeaf] at hleaf
  case restrict r' vars => simp [isLeaf] at hleaf
  all_goals rfl

/-- Shared helper: every leaf rule's `compute_steps` succeeds on a
non-empty mapping, preserving its key list. -/
theorem computeSteps_leaf_nonempty (r : SRule) (hleaf : isLeaf r = true)
    (pe : Var × Expr) (rest : List (Var × Expr)) (s : Fresh) :
    ∃ steps upds s', computeSteps r (pe :: rest) s = (.tuple steps upds, s') ∧
      steps.map Prod.fst = (pe :: rest).map Prod.fst := by
  obtain ⟨st, up, s', hfan, hkeys⟩ := fanOut_keys r hleaf (pe :: rest) s
  refine ⟨st, up, s', ?_, hkeys⟩
  rw [computeSteps_leaf_eq r hleaf, hfan]
  simp

/-- Shared helper: any tuple a leaf rule's `compute_steps` returns carries
exactly the input's keys in order. -/
theorem computeSteps_leaf_keys (r : SRule) (hleaf : isLeaf r = true)
    (prev : List (Var × Expr)) (s : Fresh) (steps upds : List (Var × Expr)) (s' : Fresh)
    (h : computeSteps r prev s = (.tuple steps upds, s')) :
    steps.map Prod.fst = prev.map Prod.fst := by
  rw [computeSteps_leaf_eq r hleaf] at h
  cases prev with
  | nil => simp [fanOut] at h
  | cons pe rest =>
      rcases hfan : fanOut r (pe :: rest) s with _ | ⟨⟨st, up⟩, s2⟩
      · rw [hfan] at h
        simp at h
      · rw [hfan] at h
        dsimp only at h
        rw [if_neg (by simp : ¬((pe :: rest).isEmpty = true))] at h
        injection h with h1 h2
        injection h1 with h3 h4
        subst h3
        exact fanOut_some_keys _ _ _ _ _ _ hfan

mutual

/-- Shared helper: whenever any rule's `compute_steps` returns a
`(steps, updates)` tuple, the steps mapping carries exactly the key set and
key iteration order of the input mapping (on raising executions no mapping
is returned and nothing is claimed). -/
theorem computeSteps_tuple_keys (r : SRule) :
    ∀ (prev : List (Var × Expr)) (s : Fresh) (steps upds : List (Var × Expr)) (s' : Fresh),
      computeSteps r prev s = (.tuple steps upds, s') →
      steps.map Prod.fst = prev.map Prod.fst := by
  cases r
  case stepClipping θ =>
      cases θ with
      | none =>
          intro prev s steps upds s' h
          simp [computeSteps] at h
      | some t =>
          intro prev s steps upds s' h
          rw [computeSteps] at h
          injection h with h1 h2
          injection h1 with h3 h4
          subst h3
          simp
  case composite rs =>
      intro prev s steps upds s' h
      exact compositeSteps_tuple_keys rs prev [] s steps upds s'
        (by simpa [computeSteps] using h)
  case restrict r' vars =>
      intro prev s steps upds s' h
      rw [computeSteps] at h
      rcases hres : computeSteps r' (dictSubset prev vars) s with ⟨pr, s1⟩
      rw [hres] at h
      cases pr with
      | tuple ist iup =>
          dsimp only at h
          injection h with h1 h2
          injection h1 with h3 h4
          subst h3
          simp
      | dictOnly d => simp at h
      | err => simp at h
  all_goals
    intro prev s steps upds s' h
    refine computeSteps_leaf_keys _ ?_ prev s steps upds s' h
    rfl

/-- Shared helper: the same key statement for the CompositeRule loop. -/
theorem compositeSteps_tuple_keys (rs : List SRule) :
    ∀ (steps upds : List (Var × Expr)) (s : Fresh)
      (st up : List (Var × Expr)) (s' : Fresh),
      compositeSteps rs steps upds s = (.tuple st up, s') →
      st.map Prod.fst = steps.map Prod.fst := by
  cases rs with
  | nil =>
      intro steps upds s st up s' h
      rw [compositeSteps] at h
      injection h with h1 h2
      injection h1 with h3 h4
      subst h3
      rfl
  | cons r rest =>
      intro steps upds s st up s' h
      rw [compositeSteps] at h
      rcases hres : computeSteps r steps s with ⟨pr, s1⟩
      rw [hres] at h
      cases pr with
      | tuple steps1 more =>
          have hk1 := computeSteps_tuple_keys r steps s steps1 more s1 hres
          have hk2 := compositeSteps_tuple_keys rest steps1 (upds ++ more) s1 st up s'
            (by simpa using h)
          exact hk2.trans hk1
      | dictOnly d => simp at h
      | err => simp at h

end

mutual

/-- Shared helper: under `totalOn` (every StepClipping configured, every
default-path invocation along the execution on a non-empty mapping)
`compute_steps` returns a `(steps, updates)` tuple whose steps mapping
keeps the input's key list. -/
theorem computeSteps_totalOn (r : SRule) :
    ∀ (prev : List (Var × Expr)) (s : Fresh),
      totalOn r (prev.map Prod.fst) = true →
      ∃ steps upds s', computeSteps r prev s = (.tuple steps upds, s') ∧
        steps.map Prod.fst = prev.map Prod.fst := by
  cases r
  case stepClipping θ =>
      cases θ with
      | none =>
          intro prev s h
          simp [totalOn] at h
      | some t =>
          intro prev s h
          exact ⟨_, [], s, rfl, by simp⟩
  case composite rs =>
      intro prev s h
      have h' : totalOnList rs (prev.map Prod.fst) = true := by simpa [totalOn] using h
      obtain ⟨st, up, s', heq, hkeys⟩ := compositeSteps_totalOn rs prev [] s h'
      exact ⟨st, up, s', heq, hkeys⟩
  case restrict r' vars =>
      intro prev s h
      have h' : totalOn r' ((dictSubset prev vars).map Prod.fst) = true := by
        rw [dictSubset_keys]
        simpa [totalOn] using h
      obtain ⟨st, up, s', heq, _⟩ := computeSteps_totalOn r' (dictSubset prev vars) s h'
      refine ⟨prev.map fun pe => (pe.1, (List.lookup pe.1 st).getD pe.2), up, s', ?_, ?_⟩
      · simp [computeSteps, heq]
      · simp
  all_goals
    intro prev s h
    cases prev with
    | nil => simp [totalOn] at h
    | cons pe rest =>
        refine computeSteps_leaf_nonempty _ ?_ pe rest s
        rfl

/-- Shared helper: the same success statement for the CompositeRule loop. -/
theorem compositeSteps_totalOn (rs : List SRule) :
    ∀ (steps upds : List (Var × Expr)) (s : Fresh),
      totalOnList rs (steps.map Prod.fst) = true →
      ∃ st up s', compositeSteps rs steps upds s = (.tuple st up, s') ∧
        st.map Prod.fst = steps.map Prod.fst := by
  cases rs with
  | nil => exact fun steps upds s _ => ⟨steps, upds, s, rfl, rfl⟩
  | cons r rest =>
      intro steps upds s h
      have h1 : totalOn r (steps.map Prod.fst) = true := by
        have := h
        simp [totalOnList, Bool.and_eq_true] at this
        exact this.1
      have h2 : totalOnList rest (steps.map Prod.fst) = true := by
        have := h
        simp [totalOnList, Bool.and_eq_true] at this
        exact this.2
      obtain ⟨st1, up1, s1, heq1, hk1⟩ := computeSteps_totalOn r steps s h1
      obtain ⟨st2, up2, s2, heq2, hk2⟩ :=
        compositeSteps_totalOn rest st1 (upds ++ up1) s1 (by rw [hk1]; exact h2)
      exact ⟨st2, up2, s2, by simp [compositeSteps, heq1, heq2], hk2.trans hk1⟩

end

/-- Shared helper: looking up a key absent from the key list of an
association list yields `none`. -/
theorem lookup_eq_none_of_not_mem_keys {α β : Type} [BEq α] [LawfulBEq α]
    (l : List (α × β)) (a : α) (h : a ∉ l.map Prod.fst) :
    List.lookup a l = none := by
  induction l with
  | nil => rfl
  | cons pe rest ih =>
      have h1 : a ≠ pe.1 := fun hc => h (by simp [hc])
      have h2 : a ∉ rest.map Prod.fst := fun hc => h (by simp [hc])
      have hbeq : (a == pe.1) = false := by simp [h1]
      simp [List.lookup, hbeq, ih h2]

/-- Shared helper: looking up a key present in the key list of an
association list succeeds. -/
theorem lookup_isSome_of_mem_keys {α β : Type} [BEq α] [LawfulBEq α]
    (l : List (α × β)) (a : α) (h : a ∈ l.map Prod.fst) :
    (List.lookup a l).isSome = true := by
  induction l with
  | nil => simp at h
  | cons pe rest ih =>
      by_cases hc : a = pe.1
      · simp [List.lookup, hc]
      · have hbeq : (a == pe.1) = false := by simp [hc]
        have h2 : a ∈ rest.map Prod.fst := by
          rw [List.map_cons, List.mem_cons] at h
          rcases h with h' | h'
          · exact absurd h' hc
          · exact h'
        simp [List.lookup, hbeq, ih h2]

/-- Shared helper for the StepClipping example: the joint norm of the
previous steps 3 and 4 is 5. -/
theorem sqrt_twentyfive : Real.sqrt (25 : ℝ) = 5 := by
  rw [show (25 : ℝ) = 5 ^ 2 by norm_num, Real.sqrt_sq (by norm_num : (0 : ℝ) ≤ 5)]

/-- C1, counterexample: at this concrete input (one extra update on
variable 9, one parameter 0, one step-rule update on variable 5) the
update-pair list `initialize()` builds is not in the order the claim
states: the code places the extra updates registered via `add_updates`
first, not last. -/
theorem C1_claimed_order_refuted :
    gdInitialize [(9, .num 7)] [0] (fun _ => .num 1) [(5, .num 2)] ≠
      gdInitializeClaimed [(9, .num 7)] [0] (fun _ => .num 1) [(5, .num 2)] := by
  decide

/-- C1, amended: `initialize()` builds the compiled function's update-pair
list as the extra updates registered on the minimizer via `add_updates`
first, then the per-parameter pairs `(param, param - steps[param])` in
parameter order, then the step rule's own update pairs. -/
theorem C1_initialize_order (updates : List (Var × Expr)) (params : List Var)
    (steps : Var → Expr) (sru : List (Var × Expr)) :
    gdInitialize updates params steps sru =
      updates ++ (params.map fun p => (p, Expr.sub (.cell p) (steps p))) ++ sru := by
  unfold gdInitialize
  have hfold : ∀ (ps : List Var) (u : List (Var × Expr)),
      ps.foldl (fun acc p => acc ++ [(p, Expr.sub (.cell p) (steps p))]) u =
        u ++ ps.map (fun p => (p, Expr.sub (.cell p) (steps p))) := by
    intro ps
    induction ps with
    | nil => intro u; simp
    | cons p rest ih => intro u; simp [ih]
  rw [hfold, List.append_assoc]

/-- C2: constructing GradientDescent with a non-empty `gradients` mapping
together with `known_grads` raises the ValueError, whatever the `params`
keyword; with `gradients` supplied and no `known_grads` construction
succeeds, uses the supplied gradients, and takes the parameters from the
mapping's keys. -/
theorem C2_gradients_knownGrads_exclusive (g : List (Var × Expr)) (h : g ≠ []) :
    (∀ pkw, gdInit (some g) true pkw =
       .error "known_grads has no effect when gradients are passed in")
    ∧ gdInit (some g) false none = .ok (g.map Prod.fst, .supplied g) := by
  cases g with
  | nil => exact absurd rfl h
  | cons pe rest =>
      refine ⟨?_, rfl⟩
      intro pkw
      cases pkw <;> rfl

/-- Witness for C2 at the one-entry gradient mapping on parameter 0. -/
theorem C2_gradients_knownGrads_exclusive_witness :
    ([((0 : Var), Expr.num 1)] ≠ []) ∧
    ((∀ pkw, gdInit (some [((0 : Var), Expr.num 1)]) true pkw =
        .error "known_grads has no effect when gradients are passed in")
     ∧ gdInit (some [((0 : Var), Expr.num 1)]) false none =
         .ok ([0], .supplied [((0 : Var), Expr.num 1)])) :=
  ⟨by decide, C2_gradients_knownGrads_exclusive [((0 : Var), Expr.num 1)] (by decide)⟩

/-- C3: `process_batch` errors exactly when the set of batch keys differs
from the set of declared input names, and the error carries both the batch
source names and the expected input names; when the sets agree it returns
the batch values reordered into `inputs` order (every lookup succeeding),
the argument list of the compiled function call. -/
theorem C3_processBatch_mismatch (inputs : List String) (batch : List (String × ℚ)) :
    (processBatch inputs batch = .error (batch.map Prod.fst, inputs) ↔
       setEqB (batch.map Prod.fst) inputs = false)
    ∧ (setEqB (batch.map Prod.fst) inputs = true →
        processBatch inputs batch = .ok (inputs.map fun n => List.lookup n batch)
        ∧ ∀ n ∈ inputs, (List.lookup n batch).isSome = true) := by
  by_cases hset : setEqB (batch.map Prod.fst) inputs = true
  · refine ⟨?_, ?_⟩
    · rw [hset]
      simp [processBatch, hset]
    · intro _
      refine ⟨by simp [processBatch, hset], ?_⟩
      intro n hn
      apply lookup_isSome_of_mem_keys
      have hall : inputs.all (fun x => (batch.map Prod.fst).contains x) = true := by
        have := hset
        simp [setEqB, Bool.and_eq_true] at this
        simpa [List.all_eq_true] using this.2
      rw [List.all_eq_true] at hall
      simpa using hall n hn
  · have hf : setEqB (batch.map Prod.fst) inputs = false := by
      simpa using hset
    refine ⟨?_, ?_⟩
    · rw [hf]
      simp [processBatch, hf]
    · intro hc
      exact absurd hc hset

/-- Witness for C3: a matching batch is reordered to the inputs order, a
mismatched one errors with both name lists. -/
theorem C3_processBatch_mismatch_witness :
    processBatch ["x", "y"] [("y", 2), ("x", 1)] = .ok [some 1, some 2]
    ∧ processBatch ["x"] [("z", 3)] = .error (["z"], ["x"]) := by
  constructor
  · have h := ((C3_processBatch_mismatch ["x", "y"] [("y", 2), ("x", 1)]).2 (by decide)).1
    rw [h]
    rfl
  · exact (C3_processBatch_mismatch ["x"] [("z", 3)]).1.mpr (by decide)

/-- C4: for every step rule of the module and every input ordered mapping,
the steps mapping returned by `compute_steps` has exactly the key set and
key iteration order of the input mapping: whenever a `(steps, updates)`
tuple is returned the keys match (on the executions where the source
raises — an unconfigured StepClipping's bare-dict return, or the
equizip-unpacking ValueError of the default path on an empty mapping — no
steps mapping is returned and `err` is produced instead); and under
`totalOn`, which rules such raising executions out, the tuple with
matching keys is in fact returned. -/
theorem C4_compute_steps_preserves_keys :
    (∀ (r : SRule) (prev : List (Var × Expr)) (s : Fresh)
       (steps upds : List (Var × Expr)) (s' : Fresh),
        computeSteps r prev s = (.tuple steps upds, s') →
        steps.map Prod.fst = prev.map Prod.fst)
    ∧ (∀ (r : SRule) (prev : List (Var × Expr)) (s : Fresh),
        totalOn r (prev.map Prod.fst) = true →
        ∃ steps upds s', computeSteps r prev s = (.tuple steps upds, s') ∧
          steps.map Prod.fst = prev.map Prod.fst) :=
  ⟨fun r prev s steps upds s' h => computeSteps_tuple_keys r prev s steps upds s' h,
   fun r prev s h => computeSteps_totalOn r prev s h⟩

/-- Witness for C4: the conditional part at a one-parameter StepClipping
invocation, the success part on a composite of StepClipping, Restrict and
BasicMomentum over a two-parameter mapping. -/
theorem C4_compute_steps_preserves_keys_witness :
    ([((0 : Var), Expr.mul (.num 3) (clipMult 4 [(0, .num 3)]))].map Prod.fst
       = [((0 : Var), Expr.num 3)].map Prod.fst)
    ∧ (totalOn (SRule.composite
         [.stepClipping (some 4), .restrict (.scale 2) [1], .basicMomentum 2])
         ([((0 : Var), Expr.num 3), (1, .num 4)].map Prod.fst) = true)
    ∧ ∃ steps upds s',
        computeSteps (SRule.composite
            [.stepClipping (some 4), .restrict (.scale 2) [1], .basicMomentum 2])
          [(0, .num 3), (1, .num 4)] ⟨2, []⟩ = (.tuple steps upds, s')
        ∧ steps.map Prod.fst = [((0 : Var), Expr.num 3), (1, .num 4)].map Prod.fst :=
  ⟨C4_compute_steps_preserves_keys.1 (.stepClipping (some 4)) [(0, .num 3)] ⟨1, []⟩
      [(0, Expr.mul (.num 3) (clipMult 4 [(0, .num 3)]))] [] ⟨1, []⟩ rfl,
   by decide,
   C4_compute_steps_preserves_keys.2 _ [(0, .num 3), (1, .num 4)] ⟨2, []⟩ (by decide)⟩

/-- C5: StepClipping with a configured threshold maps every step to its
input times the one joint multiplier computed from the single L2 norm over
all values of the input mapping, returns an empty update list, and the
multiplier semantics is: unchanged when the norm is strictly below the
threshold, scaled by threshold/norm otherwise.  Concretely, threshold 4 on
the steps 3 and 4 (joint norm 5) yields 2.4 and 3.2, and threshold 5
yields 3 and 4 unchanged. -/
theorem C5_stepClipping_joint_norm :
    (∀ (θ : ℚ) (prev : List (Var × Expr)) (s : Fresh),
       computeSteps (.stepClipping (some θ)) prev s =
         (.tuple (prev.map fun pe => (pe.1, Expr.mul pe.2 (clipMult θ prev))) [], s))
    ∧ (∀ (θ : ℚ) (prev : List (Var × Expr)) (σ : Var → ℝ) (e : Expr),
        eval σ (Expr.mul e (clipMult θ prev)) =
          if eval σ (l2norm (prev.map Prod.snd)) < (θ : ℝ) then eval σ e
          else eval σ e * ((θ : ℝ) / eval σ (l2norm (prev.map Prod.snd))))
    ∧ eval (fun _ => 0) (Expr.mul (.num 3) (clipMult 4 [(0, .num 3), (1, .num 4)])) = 2.4
    ∧ eval (fun _ => 0) (Expr.mul (.num 4) (clipMult 4 [(0, .num 3), (1, .num 4)])) = 3.2
    ∧ eval (fun _ => 0) (Expr.mul (.num 3) (clipMult 5 [(0, .num 3), (1, .num 4)])) = 3
    ∧ eval (fun _ => 0) (Expr.mul (.num 4) (clipMult 5 [(0, .num 3), (1, .num 4)])) = 4 := by
  refine ⟨fun θ prev s => rfl, ?_, ?_, ?_, ?_, ?_⟩
  · intro θ prev σ e
    simp only [eval, clipMult]
    split <;> ring
  all_goals
    simp [eval, clipMult, l2norm]
    rw [show ((3 : ℝ) ^ 2 + 4 ^ 2) = 25 by norm_num, sqrt_twentyfive]
    norm_num

/-- C6 (documents a code bug): StepClipping constructed with no threshold
returns the bare input mapping from `compute_steps`, not the
`(steps, update_pairs)` pair the StepRule contract documents; at this
failing input the result is `dictOnly`, never a `tuple`. -/
theorem C6_stepClipping_none_bare :
    computeSteps (.stepClipping none) [(0, .num 3)] ⟨1, []⟩
      = (.dictOnly [(0, .num 3)], ⟨1, []⟩)
    ∧ ∀ steps upds s',
        computeSteps (.stepClipping none) [(0, .num 3)] ⟨1, []⟩ ≠ (.tuple steps upds, s') := by
  refine ⟨rfl, ?_⟩
  intro steps upds s' hcontra
  simp [computeSteps] at hcontra

/-- C7: BasicMomentum creates one zero-initialized velocity cell per
parameter, emits `step = momentum * velocity + previous_step`, and exactly
one update pair assigning that step (not the velocity term alone) to the
velocity cell; on the gradient of `cost = sum(a ** 2)` at `a = [3, 4]`,
BasicMomentum(0.5) applied three times in sequence yields the steps
[6, 8], [9, 12], [10.5, 14]. -/
theorem C7_basicMomentum_accumulates :
    (∀ (m : ℚ) (p : Var) (g : Expr) (s : Fresh),
       computeStep (.basicMomentum m) p g s =
         some ((Expr.add (.mul (.num m) (.cell s.ctr)) g,
                [(s.ctr, Expr.add (.mul (.num m) (.cell s.ctr)) g)]),
               ⟨s.ctr + 1, s.inits ++ [(s.ctr, 0)]⟩))
    ∧ computeSteps (.basicMomentum (1/2)) bmPrev ⟨2, []⟩ =
        (.tuple [(0, bmSt0), (1, bmSt1)] bmUpds, ⟨4, [(2, 0), (3, 0)]⟩)
    ∧ (eval (bmStore 0) bmSt0 = 6 ∧ eval (bmStore 0) bmSt1 = 8)
    ∧ (eval (bmStore 1) bmSt0 = 9 ∧ eval (bmStore 1) bmSt1 = 12)
    ∧ (eval (bmStore 2) bmSt0 = 10.5 ∧ eval (bmStore 2) bmSt1 = 14) := by
  refine ⟨fun m p g s => rfl, rfl, ⟨?_, ?_⟩, ⟨?_, ?_⟩, ⟨?_, ?_⟩⟩ <;>
    · simp [bmStore, applyUpdates, bmUpds, List.lookup, eval, bmSt0, bmSt1, gradSq]
      norm_num

/-- C8: Adam's `compute_step` creates three fresh zero-initialized cells
(mean, variance, time) per parameter and emits exactly the claimed
recurrence: `t' = time + 1`,
`lr' = lr * sqrt(1 - (1-β2)^t') / (1 - (1-β1)^t')`,
`β1t = 1 - (1-β1) * d^(t'-1)`, `mean' = β1t*g + (1-β1t)*mean`,
`variance' = β2*g² + (1-β2)*variance`,
`step = lr'*mean' / (sqrt(variance') + ε)`, with exactly the three update
pairs setting mean, variance and time to their primed values. -/
theorem C8_adam_recurrence (lr β1 β2 ε d : ℚ) (p : Var) (g : Expr) (s : Fresh) :
    computeStep (.adam lr β1 β2 ε d) p g s =
      some ((Expr.div
               (.mul (Expr.div
                        (.mul (.num lr)
                          (.sqrt (.sub (.num 1)
                            (.pow (.num (1 - β2)) (.add (.cell (s.ctr + 2)) (.num 1))))))
                        (.sub (.num 1)
                          (.pow (.num (1 - β1)) (.add (.cell (s.ctr + 2)) (.num 1)))))
                  (Expr.add
                    (.mul (Expr.sub (.num 1)
                            (.mul (.num (1 - β1))
                              (.pow (.num d)
                                (.sub (.add (.cell (s.ctr + 2)) (.num 1)) (.num 1))))) g)
                    (.mul (.sub (.num 1)
                            (Expr.sub (.num 1)
                              (.mul (.num (1 - β1))
                                (.pow (.num d)
                                  (.sub (.add (.cell (s.ctr + 2)) (.num 1)) (.num 1))))))
                      (.cell s.ctr))))
               (.add (.sqrt (Expr.add (.mul (.num β2) (.sqr g))
                              (.mul (.num (1 - β2)) (.cell (s.ctr + 1)))))
                 (.num ε)),
             [(s.ctr,
               Expr.add
                 (.mul (Expr.sub (.num 1)
                         (.mul (.num (1 - β1))
                           (.pow (.num d)
                             (.sub (.add (.cell (s.ctr + 2)) (.num 1)) (.num 1))))) g)
                 (.mul (.sub (.num 1)
                         (Expr.sub (.num 1)
                           (.mul (.num (1 - β1))
                             (.pow (.num d)
                               (.sub (.add (.cell (s.ctr + 2)) (.num 1)) (.num 1))))))
                   (.cell s.ctr))),
              (s.ctr + 1,
               Expr.add (.mul (.num β2) (.sqr g))
                 (.mul (.num (1 - β2)) (.cell (s.ctr + 1)))),
              (s.ctr + 2, Expr.add (.cell (s.ctr + 2)) (.num 1))]),
            ⟨s.ctr + 3, s.inits ++ [(s.ctr, 0), (s.ctr + 1, 0), (s.ctr + 2, 0)]⟩) := by
  simp [computeStep, alloc]

/-- C9: whenever the wrapped rule's `compute_steps` on the restricted
sub-mapping (the keys in the variables set, in input order) returns a
`(steps, updates)` result — when it raises instead, e.g. a leaf rule on an
empty sub-mapping, Restrict propagates the failure — Restrict returns
exactly: the input mapping with every key in the set stepped by the wrapped
result and every key outside it passing through with its input
previous-step expression (its lookup in the wrapped result finds nothing),
together with exactly the wrapped invocation's update pairs. -/
theorem C9_restrict_applies_to_subset (inner : SRule) (vars : List Var)
    (prev : List (Var × Expr)) (s : Fresh)
    (innerSteps upds : List (Var × Expr)) (s' : Fresh)
    (hinner : computeSteps inner (dictSubset prev vars) s = (.tuple innerSteps upds, s')) :
    computeSteps (.restrict inner vars) prev s =
      (.tuple (prev.map fun pe => (pe.1, (List.lookup pe.1 innerSteps).getD pe.2)) upds, s')
    ∧ ∀ pe ∈ prev, pe.1 ∉ vars → List.lookup pe.1 innerSteps = none := by
  have hkeys := computeSteps_tuple_keys inner (dictSubset prev vars) s innerSteps upds s' hinner
  refine ⟨by simp [computeSteps, hinner], ?_⟩
  intro pe hpe hnot
  apply lookup_eq_none_of_not_mem_keys
  rw [hkeys]
  intro hmem
  rw [List.mem_map] at hmem
  obtain ⟨q, hq, hqfst⟩ := hmem
  rw [dictSubset, List.mem_filter] at hq
  have hqv : q.1 ∈ vars := by simpa using hq.2
  exact hnot (hqfst ▸ hqv)

/-- Witness for C9: `Restrict(Scale(2), keys=[1, 4])` on the repository
test's six-parameter mapping, with the wrapped invocation's result given
literally. -/
theorem C9_restrict_applies_to_subset_witness :
    (computeSteps (.scale 2)
        (dictSubset [(0, .num 0), (1, .num 1), (2, .num 4), (3, .num 9),
                     (4, .num 16), (5, .num 25)] [1, 4]) ⟨6, []⟩
      = (.tuple [(1, Expr.mul (.num 2) (.num 1)), (4, Expr.mul (.num 2) (.num 16))] [],
         ⟨6, []⟩))
    ∧ (computeSteps (.restrict (.scale 2) [1, 4])
         [(0, .num 0), (1, .num 1), (2, .num 4), (3, .num 9), (4, .num 16), (5, .num 25)]
         ⟨6, []⟩ =
        (.tuple ([(0, .num 0), (1, .num 1), (2, .num 4), (3, .num 9),
                  (4, .num 16), (5, .num 25)].map
            fun pe => (pe.1, (List.lookup pe.1
                [(1, Expr.mul (.num 2) (.num 1)),
                 (4, Expr.mul (.num 2) (.num 16))]).getD pe.2))
          [], ⟨6, []⟩)
        ∧ ∀ pe ∈ [((0 : Var), Expr.num 0), (1, .num 1), (2, .num 4), (3, .num 9),
                  (4, .num 16), (5, .num 25)],
            pe.1 ∉ [(1 : Var), 4] →
            List.lookup pe.1 [(1, Expr.mul (.num 2) (.num 1)),
                              (4, Expr.mul (.num 2) (.num 16))] = none) :=
  ⟨by decide,
   C9_restrict_applies_to_subset (.scale 2) [1, 4]
     [(0, .num 0), (1, .num 1), (2, .num 4), (3, .num 9), (4, .num 16), (5, .num 25)]
     ⟨6, []⟩
     [(1, Expr.mul (.num 2) (.num 1)), (4, Expr.mul (.num 2) (.num 16))] [] ⟨6, []⟩
     (by decide)⟩

/-- C10: a gradients argument bound to the empty mapping behaves exactly as
an absent one: the constructor result is identical, the gradients are taken
by automatic differentiation of the cost over the parameters, and a
simultaneous `known_grads` is accepted without error. -/
theorem C10_empty_gradients_like_none (kg : Bool) (pkw : Option (List Var)) :
    gdInit (some []) kg pkw = gdInit none kg pkw
    ∧ ∀ ps, gdInit (some []) kg (some ps) = .ok (ps, .autodiff ps kg) := by
  constructor
  · cases pkw <;> cases kg <;> rfl
  · intro ps; cases kg <;> rfl

end Blocks
